import Mathlib

/-!  Formal model of the corpus-filtering utilities of the litteraturkart
repository (`src/litteraturkart/utils.py`), together with proofs of the
behavioural properties of `extract_unique_values`, `bool_filter`,
`filtered_selection`, `imag_corpus` and `geo_locations`.

Python strings are modelled as lists of characters (`PyStr`), missing
(`NaN`/`None`) cells as `Option`/`Cell` values, and raised exceptions as
`Except` errors.  The fragment of the `re` pattern language reachable from
`bool_filter` is modelled by an executable parser and a Brzozowski-derivative
matcher further below. -/

/-- Model of a Python `str`: a list of Unicode characters. -/
abbrev PyStr := List Char

/-- Model of Python `sep.join(xs)` for a list of strings. -/
def pyjoin (sep : PyStr) : List PyStr → PyStr
  | [] => []
  | [x] => x
  | x :: y :: xs => x ++ sep ++ pyjoin sep (y :: xs)

/-- Model of Python `str.strip()`: drop whitespace from both ends. -/
def pystrip (s : PyStr) : PyStr :=
  ((s.dropWhile Char.isWhitespace).reverse.dropWhile Char.isWhitespace).reverse

/-- Model of Python `str.split(sep)` for a single-character separator (the only
form the repository uses; the separator the repository passes is `"/"`). -/
def pysplit (sep : Char) : PyStr → List PyStr
  | [] => [[]]
  | c :: rest =>
    match pysplit sep rest with
    | [] => [[]]
    | u :: us => if c = sep then [] :: u :: us else (c :: u) :: us

/-- Model of Python `s.replace(c, "\\" + c)` as used in `bool_filter` to escape
parentheses in the joined regex pattern. -/
def escapeChar (c : Char) (s : PyStr) : PyStr :=
  s.flatMap (fun d => if d = c then ['\\', c] else [d])

/-- Boolean lexicographic comparison of modelled strings (Python `<` on `str`,
comparing Unicode code points). -/
def lexLt : PyStr → PyStr → Bool
  | [], [] => false
  | [], _ :: _ => true
  | _ :: _, [] => false
  | a :: as, b :: bs => decide (a < b) || (decide (a = b) && lexLt as bs)

/-- Non-strict lexicographic order used to model Python `sorted`. -/
def lexLe (a b : PyStr) : Prop := lexLt a b = true ∨ a = b

instance : DecidableRel lexLe := fun a b => by
  unfold lexLe; infer_instance

/-- Model of Python `sorted(list({...}))`: deduplicate, then sort
lexicographically. -/
def sortedDedup (l : List PyStr) : List PyStr := List.insertionSort lexLe l.dedup

/-- Model of a pandas cell of an object column: a string, a missing value
(`NaN`/`None`), or some non-string value. -/
inductive Cell
  | cstr (s : PyStr)
  | cmissing
  | cother
  deriving DecidableEq

/-- Model of the `isinstance(item, str)` test of `extract_unique_values`: the
string payload of a cell, if any. -/
def cellStr : Cell → Option PyStr
  | .cstr s => some s
  | _ => none

/-- Model of `utils.extract_unique_values`: over the distinct string cells of a
column, split each cell on `sep`, keep the units that are non-empty *before*
stripping, strip each, deduplicate and sort — Python
`sorted(list({unit.strip() for item in data.unique() if isinstance(item, str)
for unit in item.split(sep) if unit}))`. -/
def extract_unique_values (data : List Cell) (sep : Char) : List PyStr :=
  sortedDedup
    ((data.dedup.filterMap cellStr).flatMap
      (fun item => ((pysplit sep item).filter (· ≠ [])).map pystrip))

/-- Specification-side variant of `extract_unique_values`, following the spec
text word for word: split each cell, trim whitespace from each unit, discard
empty (post-trim) units, deduplicate and sort. -/
def extract_unique_values_spec (data : List Cell) (sep : Char) : List PyStr :=
  sortedDedup
    ((data.dedup.filterMap cellStr).flatMap
      (fun item => ((pysplit sep item).map pystrip).filter (· ≠ [])))

example : extract_unique_values [Cell.cstr "a/ ".toList] '/' = ["".toList, "a".toList] := by decide

example : extract_unique_values_spec [Cell.cstr "a/ ".toList] '/' = ["a".toList] := by decide

example : extract_unique_values
    [Cell.cstr "Ibsen, Henrik/Bjørnson, Bjørnstjerne".toList] '/' =
    ["Bjørnson, Bjørnstjerne".toList, "Ibsen, Henrik".toList] := by decide

/-- Model of a character-class item of a regex: a single character or a range. -/
inductive CItem
  | single (c : Char)
  | crange (lo hi : Char)
  deriving DecidableEq

/-- Test of one class item against a character. -/
def citemMatch (c : Char) : CItem → Bool
  | .single d => decide (c = d)
  | .crange lo hi => decide (lo ≤ c) && decide (c ≤ hi)

/-- Abstract syntax of the modelled fragment of the `re` pattern language: the
empty language, the empty string, literal characters, `.`, character classes,
alternation, concatenation and Kleene star.  Bounded repetition, anchors,
groups and class escapes are outside the modelled fragment. -/
inductive Regex
  | emp
  | eps
  | chr (c : Char)
  | dot
  | cls (neg : Bool) (items : List CItem)
  | alt (a b : Regex)
  | cat (a b : Regex)
  | star (a : Regex)
  deriving DecidableEq

/-- Nullability: whether the regex matches the empty string. -/
def nullable : Regex → Bool
  | .eps => true
  | .star _ => true
  | .alt a b => nullable a || nullable b
  | .cat a b => nullable a && nullable b
  | _ => false

/-- Smart alternation used by the derivative, absorbing the empty language. -/
def salt (a b : Regex) : Regex :=
  if a = .emp then b else if b = .emp then a else .alt a b

/-- Smart concatenation used by the derivative, absorbing the empty language
and the empty string. -/
def scat (a b : Regex) : Regex :=
  if a = .emp ∨ b = .emp then .emp
  else if a = .eps then b
  else if b = .eps then a
  else .cat a b

/-- Brzozowski derivative of a regex by one character. -/
def rderiv : Regex → Char → Regex
  | .emp, _ => .emp
  | .eps, _ => .emp
  | .chr c, d => if d = c then .eps else .emp
  | .dot, d => if d = '\n' then .emp else .eps
  | .cls neg items, d => if (items.any (citemMatch d)) != neg then .eps else .emp
  | .alt a b, d => salt (rderiv a d) (rderiv b d)
  | .cat a b, d =>
    if nullable a then salt (scat (rderiv a d) b) (rderiv b d)
    else scat (rderiv a d) b
  | .star a, d => scat (rderiv a d) (.star a)

/-- Test whether some initial segment of `s` matches `r` (a successful `re`
match starting at the current position). -/
def matchHere (r : Regex) : PyStr → Bool
  | [] => nullable r
  | c :: cs => nullable r || matchHere (rderiv r c) cs

/-- Model of `re.search` as used by `Series.str.contains(pat, regex=True)`:
some substring of `s` matches `r`. -/
def reSearch (r : Regex) : PyStr → Bool
  | [] => nullable r
  | c :: cs => matchHere r (c :: cs) || reSearch r cs

/-- Tokens of the modelled regex surface syntax. -/
inductive Tok
  | lit (c : Char)
  | dot
  | bar
  | star
  | plus
  | quest
  | cls (neg : Bool) (items : List CItem)
  deriving DecidableEq

/-- Parser of the items of a character class, after the opening `[` (and after
an optional `^` or leading literal `]`).  Returns the items and the input
remaining after the closing `]`; `none` models `re.error` (an unterminated
character set, or a reversed range such as `z-a`, a bad character range);
class escapes are outside the modelled fragment. -/
def parseClassItems : PyStr → Option (List CItem × PyStr)
  | [] => none
  | ']' :: rest => some ([], rest)
  | '\\' :: _ => none
  | c :: '-' :: ']' :: rest => some ([CItem.single c, CItem.single '-'], rest)
  | _ :: '-' :: '\\' :: _ => none
  | c :: '-' :: d :: rest =>
    if c ≤ d then (parseClassItems rest).map (fun p => (CItem.crange c d :: p.1, p.2))
    else none
  | c :: rest =>
    (parseClassItems rest).map (fun p => (CItem.single c :: p.1, p.2))

/-- Parser of a character class after the opening `[`: an optional `^`
negation, a leading `]` taken literally (as `re` does), then the items. -/
def parseClass (s : PyStr) : Option (Bool × List CItem × PyStr) :=
  match s with
  | '^' :: ']' :: r2 => (parseClassItems r2).map (fun p => (true, CItem.single ']' :: p.1, p.2))
  | '^' :: r1 => (parseClassItems r1).map (fun p => (true, p.1, p.2))
  | ']' :: r2 => (parseClassItems r2).map (fun p => (false, CItem.single ']' :: p.1, p.2))
  | r1 => (parseClassItems r1).map (fun p => (false, p.1, p.2))


theorem parseClassItems_length :
    ∀ {s : PyStr} {p : List CItem × PyStr}, parseClassItems s = some p → p.2.length < s.length := by
  intro s
  induction s using parseClassItems.induct with
  | case1 => intro p hp; rw [parseClassItems.eq_1] at hp; exact absurd hp (by simp)
  | case2 rest =>
    intro p hp
    rw [parseClassItems.eq_2] at hp
    injection hp with h
    subst h
    simp
  | case3 tail => intro p hp; rw [parseClassItems.eq_3] at hp; exact absurd hp (by simp)
  | case4 c rest h1 h2 =>
    intro p hp
    rw [parseClassItems.eq_4 c rest h1 h2] at hp
    injection hp with h
    subst h
    simp
    omega
  | case5 c tail h1 h2 =>
    intro p hp
    rw [parseClassItems.eq_5 c tail h1 h2] at hp
    exact absurd hp (by simp)
  | case6 c d rest h1 h2 h3 h4 hcd ih =>
    intro p hp
    rw [parseClassItems.eq_6 c d rest h1 h2 h3 h4, if_pos hcd] at hp
    rcases Option.map_eq_some'.mp hp with ⟨q, hq, rfl⟩
    have := ih hq
    simp only [List.length_cons]
    omega
  | case7 c d rest h1 h2 h3 h4 hcd =>
    intro p hp
    rw [parseClassItems.eq_6 c d rest h1 h2 h3 h4, if_neg hcd] at hp
    exact absurd hp (by simp)
  | case8 c rest h1 h2 h3 h4 h5 ih =>
    intro p hp
    rw [parseClassItems.eq_7 c rest h1 h2 h3 h4 h5] at hp
    rcases Option.map_eq_some'.mp hp with ⟨q, hq, rfl⟩
    have := ih hq
    simp only [List.length_cons]
    omega

theorem parseClass_length {s : PyStr} {p : Bool × List CItem × PyStr}
    (h : parseClass s = some p) : p.2.2.length < s.length := by
  unfold parseClass at h
  split at h <;>
    (rcases Option.map_eq_some'.mp h with ⟨q, hq, rfl⟩
     have hq2 := parseClassItems_length hq
     simp at hq2 ⊢
     omega)

/-- Tokenizer of the modelled `re` fragment, by fuel-counted recursion (one
unit of fuel per consumed leading character, so `s.length` fuel always
suffices).  Returns `none` (modelling `re.error`, or a construct outside the
modelled fragment) for a dangling backslash, an alphanumeric escape, an
unterminated character class, and for the unsupported `(`, `)`, `^`, `$`,
`{`, `}` constructs (`re` gives braces a bounded-repetition reading, which is
outside the modelled fragment). -/
def tokenizeGo : Nat → PyStr → Option (List Tok)
  | _, [] => some []
  | 0, _ :: _ => none
  | fuel + 1, c :: rest =>
    if c = '\\' then
      match rest with
      | [] => none
      | d :: rest2 =>
        if d.isAlphanum then none
        else (tokenizeGo fuel rest2).map (Tok.lit d :: ·)
    else if c = '[' then
      match parseClass rest with
      | none => none
      | some (_neg, items, rest2) => (tokenizeGo fuel rest2).map (Tok.cls _neg items :: ·)
    else if c = '.' then (tokenizeGo fuel rest).map (Tok.dot :: ·)
    else if c = '|' then (tokenizeGo fuel rest).map (Tok.bar :: ·)
    else if c = '*' then (tokenizeGo fuel rest).map (Tok.star :: ·)
    else if c = '+' then (tokenizeGo fuel rest).map (Tok.plus :: ·)
    else if c = '?' then (tokenizeGo fuel rest).map (Tok.quest :: ·)
    else if c = '(' ∨ c = ')' ∨ c = '^' ∨ c = '$' ∨ c = '{' ∨ c = '}' then none
    else (tokenizeGo fuel rest).map (Tok.lit c :: ·)

/-- Tokenization of a whole pattern: run `tokenizeGo` with sufficient fuel. -/
def tokenize (s : PyStr) : Option (List Tok) := tokenizeGo s.length s

/-- Splitting of the token stream on top-level `|` tokens. -/
def splitBar : List Tok → List (List Tok)
  | [] => [[]]
  | .bar :: rest => [] :: splitBar rest
  | t :: rest =>
    match splitBar rest with
    | [] => [[t]]
    | u :: us => (t :: u) :: us

/-- Regex of one token that stands alone (a literal, `.`, or a class); postfix
operators and `|` are not atoms. -/
def atomOf : Tok → Option Regex
  | .lit c => some (.chr c)
  | .dot => some .dot
  | .cls neg items => some (.cls neg items)
  | _ => none

/-- Parser of one alternative: a sequence of atoms, each optionally followed
by `*`, `+` or `?`, in turn optionally followed by a lazy `?`.  A postfix
operator with no preceding atom, or a doubled operator, models `re.error`
(nothing to repeat / multiple repeat). -/
def parseSeq : List Tok → Option Regex
  | [] => some .eps
  | t :: rest =>
    match atomOf t with
    | none => none
    | some a =>
      match rest with
      | .star :: .quest :: rest2 => (parseSeq rest2).map (fun r => .cat (.star a) r)
      | .star :: rest2 => (parseSeq rest2).map (fun r => .cat (.star a) r)
      | .plus :: .quest :: rest2 => (parseSeq rest2).map (fun r => .cat (.cat a (.star a)) r)
      | .plus :: rest2 => (parseSeq rest2).map (fun r => .cat (.cat a (.star a)) r)
      | .quest :: .quest :: rest2 => (parseSeq rest2).map (fun r => .cat (.alt a .eps) r)
      | .quest :: rest2 => (parseSeq rest2).map (fun r => .cat (.alt a .eps) r)
      | other => (parseSeq other).map (fun r => .cat a r)

/-- Parser of the list of `|`-separated alternatives. -/
def parseAlts : List (List Tok) → Option (List Regex)
  | [] => some []
  | ts :: tss => do
    let r ← parseSeq ts
    let rs ← parseAlts tss
    pure (r :: rs)

/-- Alternation of the list of parsed alternatives. -/
def altListR : List Regex → Regex
  | [] => .emp
  | [r] => r
  | r :: rs => .alt r (altListR rs)

/-- Model of the pattern validation performed by
`Series.str.contains(pat, regex=True)` (`re.compile`): tokenize, split on
top-level `|`, parse each alternative, and take their alternation.  `none`
models a raised `re.error`. -/
def reCompile (p : PyStr) : Option Regex := do
  let toks ← tokenize p
  let rs ← parseAlts (splitBar toks)
  pure (altListR rs)

example : reCompile [] = some .eps := by decide
example : reCompile "[".toList = none := by decide
example : reCompile "*".toList = none := by decide
example : reCompile "ab".toList = some (.cat (.chr 'a') (.cat (.chr 'b') .eps)) := by decide
example : reSearch ((reCompile "a|b".toList).getD .emp) "xcbz".toList = true := by decide
example : reSearch ((reCompile "a|b".toList).getD .emp) "xcz".toList = false := by decide
example : reSearch ((reCompile "a*".toList).getD .emp) "zzz".toList = true := by decide

/-- Model of the joined, paren-escaped pattern built by the `regex=True`
branch of `utils.bool_filter`:
`("|".join(examples) if examples else "").replace("(", "\(").replace(")", "\)")`.
`none` models the Python default argument `examples=None`. -/
def regpatOf (examples : Option (List PyStr)) : PyStr :=
  let joined :=
    match examples with
    | none => []
    | some l => if l.isEmpty then [] else pyjoin ['|'] l
  escapeChar ')' (escapeChar '(' joined)

/-- Model of the `regex=True` branch of `utils.bool_filter`:
`data.str.contains(regpat, regex=True)`.  A cell is `none` when the column
value is missing (`str.contains` then yields `NA`); the `Except` error models
the `re.error` raised on an invalid pattern. -/
def bool_filter_regex (data : List (Option PyStr)) (examples : Option (List PyStr)) :
    Except Unit (List (Option Bool)) :=
  match reCompile (regpatOf examples) with
  | none => .error ()
  | some r => .ok (data.map (fun v => v.map (reSearch r)))

/-- Model of the `regex=False` branch of `utils.bool_filter`:
`data.isin(examples if examples_exist else data)`, where `examples_exist` is
the Python truthiness of the argument (`bool(examples)` after the
`AttributeError` fallback — the repository only passes lists or `None` here). -/
def bool_filter_exact {α : Type} [DecidableEq α] (data : List α)
    (examples : Option (List α)) : List Bool :=
  let examples_exist := match examples with | none => false | some l => !l.isEmpty
  if examples_exist then data.map (fun v => decide (v ∈ examples.getD []))
  else data.map (fun v => decide (v ∈ data))

/-- Model of one row of the corpus metadata table, restricted to the columns
`filtered_selection` reads.  `dhlabid` is an integer (`astype(int)`), `title`
a string, and the delimited multi-value columns may be missing. -/
structure Row where
  dhlabid : Int
  category : Option PyStr
  authors : Option PyStr
  title : PyStr
  langs : Option PyStr
  year : Int
  deriving DecidableEq

/-- Kleene conjunction on nullable booleans, modelling pandas `&` on masks
that may contain `NA`. -/
def kand : Option Bool → Option Bool → Option Bool
  | some false, _ => some false
  | _, some false => some false
  | some true, some true => some true
  | _, _ => none

/-- Boolean-mask row selection `df[mask]`: keep the rows whose mask entry is
`True`; `NA` entries select nothing. -/
def maskFilter (rows : List Row) (mask : List (Option Bool)) : List Row :=
  (rows.zip mask).filterMap (fun rb => if rb.2 = some true then some rb.1 else none)

/-- Model of the year window of `filtered_selection`:
`(from_year - 1 < year) & (year < to_year + 1)`. -/
def periodPred (from_year to_year year : Int) : Bool :=
  decide (from_year - 1 < year) && decide (year < to_year + 1)

/-- Combination of the six per-column masks of `filtered_selection` with
pandas `&`, in source order
(`doc_sel & cat_sel & auth_sel & title_sel & lang_sel & period`). -/
def combinedMask (doc_sel : List Bool) (cat_sel auth_sel : List (Option Bool))
    (title_sel : List Bool) (lang_sel : List (Option Bool)) (period : List Bool) :
    List (Option Bool) :=
  List.zipWith kand
    (List.zipWith kand
      (List.zipWith kand
        (List.zipWith kand
          (List.zipWith kand (doc_sel.map some) cat_sel)
          auth_sel)
        (title_sel.map some))
      lang_sel)
    (period.map some)

/-- Intersection stage of `utils.filtered_selection`: the per-column boolean
selectors, combined with `&` in source order and applied to the table, before
the empty-result fallback.  The three `str.contains` selectors are the ones
that can raise; the source computes them in the order category, authors,
langs.  The `publishers` and `places` parameters of the source are omitted:
their selectors are commented out and never used. -/
def selectionOf (meta_df : List Row) (docids : Option (List Int))
    (categories : Option (List PyStr)) (titles : Option (List PyStr))
    (authors : Option (List PyStr)) (from_year : Int)
    (to_year : Int) (languages : Option (List PyStr)) :
    Except Unit (List Row) :=
  match bool_filter_regex (meta_df.map (·.category)) categories,
        bool_filter_regex (meta_df.map (·.authors)) authors,
        bool_filter_regex (meta_df.map (·.langs)) languages with
  | .error e, _, _ => .error e
  | _, .error e, _ => .error e
  | _, _, .error e => .error e
  | .ok cat_sel, .ok auth_sel, .ok lang_sel =>
    .ok (maskFilter meta_df
      (combinedMask (bool_filter_exact (meta_df.map (·.dhlabid)) docids) cat_sel auth_sel
        (bool_filter_exact (meta_df.map (·.title)) titles) lang_sel
        (meta_df.map (fun r => periodPred from_year to_year r.year))))

/-- Model of `utils.filtered_selection`: apply all active predicates, and fall
back to the whole input table when the intersection is empty
(`selection if not selection.empty else meta_df`).  The Python defaults are
`None` for every criteria list and `1814`/`1905` for the year bounds. -/
def filtered_selection (meta_df : List Row) (docids : Option (List Int))
    (categories : Option (List PyStr)) (titles : Option (List PyStr))
    (authors : Option (List PyStr)) (from_year : Int)
    (to_year : Int) (languages : Option (List PyStr)) :
    Except Unit (List Row) :=
  match selectionOf meta_df docids categories titles authors from_year to_year languages with
  | .error e => .error e
  | .ok selection => .ok (if !selection.isEmpty then selection else meta_df)

/-- Model of an HTTP response: a status code and the already JSON-decoded
payload rows (`α` is the record type of the endpoint). -/
structure Resp (α : Type) where
  status : Nat
  body : List α
  deriving DecidableEq

/-- Model of `utils.imag_corpus`.  The `requests.get` call is modelled by its
outcome `res`; a connection failure there is not caught (the function has no
`try`/`except`), so it propagates.  A 200 status yields the decoded body, any
other status the empty table. -/
def imag_corpus {α : Type} (res : Except Unit (Resp α)) : Except Unit (List α) :=
  match res with
  | .error e => .error e
  | .ok r => if r.status = 200 then .ok r.body else .ok []

/-- Model of `utils.geo_locations`.  The `requests.get` call sits outside the
`try` block, so a connection failure propagates.  Inside the `try`,
`raise_for_status` raises `HTTPError` (a `RequestException`) exactly for the
4xx/5xx statuses (`400 <= status < 600`), which the handler converts to the
empty table; any other status yields the decoded body. -/
def geo_locations {α : Type} (res : Except Unit (Resp α)) : Except Unit (List α) :=
  match res with
  | .error e => .error e
  | .ok r => if 400 ≤ r.status ∧ r.status < 600 then .ok [] else .ok r.body

deriving instance DecidableEq for Except

/-- Sample rows used by concrete witnesses below. -/
def row1820 : Row :=
  { dhlabid := 1, category := some "Fiksjon".toList,
    authors := some "Ibsen, Henrik/Bjørnson, Bjørnstjerne".toList,
    title := "Brand".toList, langs := some "nob".toList, year := 1820 }

def row1850 : Row :=
  { dhlabid := 2, category := some "Fiksjon".toList,
    authors := some "Skram, Amalie".toList,
    title := "Hellemyrsfolket".toList, langs := some "nob".toList, year := 1850 }

def row1900 : Row :=
  { dhlabid := 3, category := some "Sakprosa".toList,
    authors := some "Hamsun, Knut".toList,
    title := "Sult".toList, langs := some "nno".toList, year := 1900 }

example : filtered_selection [row1820, row1850, row1900]
    none none none none 1860 1905 none = .ok [row1900] := by decide

example : filtered_selection [row1820, row1850, row1900]
    none none none none 1700 1800 none = .ok [row1820, row1850, row1900] := by decide

example : filtered_selection [row1820, row1850, row1900]
    none none none (some ["Ibsen".toList]) 1814 1905 none = .ok [row1820] := by decide

example : filtered_selection [row1820, row1850, row1900]
    none (some ["[".toList]) none none 1814 1905 none = .error () := by decide

example : bool_filter_regex [some "abc".toList, none] (some []) = .ok [some true, none] := by
  decide

theorem maskFilter_sublist (rows : List Row) (mask : List (Option Bool)) :
    (maskFilter rows mask).Sublist rows := by
  induction rows generalizing mask with
  | nil => simp [maskFilter]
  | cons r rs ih =>
    cases mask with
    | nil => simp [maskFilter]
    | cons b bs =>
      by_cases hb : b = some true <;>
        simp only [maskFilter, List.zip_cons_cons, List.filterMap_cons, hb, if_pos, if_neg,
          reduceIte]
      · exact (ih bs).cons₂ r
      · exact (ih bs).cons r

theorem selectionOf_ok_sublist {md : List Row} {d : Option (List Int)}
    {c t a lg : Option (List PyStr)} {fy ty : Int} {sel : List Row}
    (h : selectionOf md d c t a fy ty lg = .ok sel) : sel.Sublist md := by
  unfold selectionOf at h
  split at h
  · exact absurd h (by simp)
  · exact absurd h (by simp)
  · exact absurd h (by simp)
  · injection h with h2
    rw [← h2]
    exact maskFilter_sublist _ _

theorem filtered_selection_ok {md : List Row} {d : Option (List Int)}
    {c t a lg : Option (List PyStr)} {fy ty : Int} {out : List Row}
    (h : filtered_selection md d c t a fy ty lg = .ok out) :
    ∃ sel, selectionOf md d c t a fy ty lg = .ok sel ∧
      ((sel ≠ [] ∧ out = sel) ∨ (sel = [] ∧ out = md)) := by
  unfold filtered_selection at h
  split at h
  · exact absurd h (by simp)
  next sel hsel =>
    injection h with h2
    refine ⟨sel, hsel, ?_⟩
    cases sel with
    | nil => right; simpa using h2.symm
    | cons x xs => left; exact ⟨by simp, by simpa using h2.symm⟩

/-- Claim C1 (fallback invariant): whenever `filtered_selection` returns on a
non-empty input table, its result is non-empty — it is the intersection-stage
subset when that subset is non-empty, and the entire original table
otherwise. -/
theorem C1_fallback_invariant (md : List Row) (d : Option (List Int))
    (c t a : Option (List PyStr)) (fy ty : Int) (lg : Option (List PyStr))
    (out : List Row) (hok : filtered_selection md d c t a fy ty lg = .ok out)
    (hne : md ≠ []) :
    out ≠ [] ∧ ∃ sel, selectionOf md d c t a fy ty lg = .ok sel ∧
      ((sel ≠ [] ∧ out = sel) ∨ (sel = [] ∧ out = md)) := by
  obtain ⟨sel, hsel, hcase⟩ := filtered_selection_ok hok
  refine ⟨?_, sel, hsel, hcase⟩
  rcases hcase with ⟨h1, rfl⟩ | ⟨_, rfl⟩
  · exact h1
  · exact hne

theorem C1_fallback_invariant_witness :
    ([row1820] : List Row) ≠ [] ∧
      ∃ sel, selectionOf [row1820] none none none none 1700 1800 none = .ok sel ∧
        ((sel ≠ [] ∧ [row1820] = sel) ∨ (sel = [] ∧ [row1820] = [row1820])) :=
  C1_fallback_invariant [row1820] none none none none 1700 1800 none [row1820]
    (by decide) (by decide)

/-- Claim C3: the year window of `filtered_selection` is inclusive on both
bounds — `(from_year - 1 < year) & (year < to_year + 1)` holds exactly when
`from_year ≤ year ≤ to_year`, so a record whose year equals either bound is
included. -/
theorem C3_year_bounds_inclusive (from_year to_year year : Int) :
    periodPred from_year to_year year = true ↔ from_year ≤ year ∧ year ≤ to_year := by
  simp only [periodPred, Bool.and_eq_true, decide_eq_true_eq]
  omega

/-- Claim C5: the `regex=False` branch of `bool_filter` (used for `dhlabid`
and `title`) tests exact membership of the cell value in the candidate list,
with no regex interpretation, and an empty or absent candidate list makes the
predicate true for every row. -/
theorem C5_exact_membership {α : Type} [DecidableEq α] (data : List α)
    (examples : Option (List α)) :
    bool_filter_exact data examples =
      data.map (fun v => (examples.getD []).isEmpty || decide (v ∈ examples.getD [])) := by
  cases examples with
  | none =>
    simp only [bool_filter_exact, Option.getD_none, List.isEmpty_nil, Bool.true_or]
    exact List.map_congr_left (fun v hv => by simp [hv])
  | some l =>
    cases l with
    | nil =>
      simp only [bool_filter_exact, Option.getD_some, List.isEmpty_nil, Bool.true_or,
        Bool.not_true, Bool.false_eq_true, if_false]
      exact List.map_congr_left (fun v hv => by simp [hv])
    | cons e es =>
      simp [bool_filter_exact]

/-- Claim C7 counterexample: a connection-level failure (unreachable endpoint)
is not caught by `imag_corpus` or `geo_locations`; the exception propagates
instead of an empty table being returned. -/
theorem C7_counterexample :
    @imag_corpus Unit (.error ()) = .error () ∧
      @geo_locations Unit (.error ()) = .error () ∧
      @imag_corpus Unit (.error ()) ≠ .ok [] ∧
      @geo_locations Unit (.error ()) ≠ .ok [] := by decide

/-- Claim C7 amended: error *statuses* are converted locally to an empty
table (`imag_corpus` for any non-200 status, `geo_locations` exactly for the
4xx/5xx statuses that `raise_for_status` raises on), but a connection failure
propagates out of both fetchers. -/
theorem C7_network_failures_amended {α : Type} (r s : Resp α) (e : Unit)
    (h200 : r.status ≠ 200) (h400 : 400 ≤ s.status ∧ s.status < 600) :
    @imag_corpus α (.ok r) = .ok [] ∧ @geo_locations α (.ok s) = .ok [] ∧
      @imag_corpus α (.error e) = .error e ∧ @geo_locations α (.error e) = .error e := by
  refine ⟨?_, ?_, rfl, rfl⟩
  · simp [imag_corpus, h200]
  · simp [geo_locations, h400]

theorem C7_network_failures_amended_witness :
    @imag_corpus Unit (.ok ⟨500, []⟩) = .ok [] ∧ @geo_locations Unit (.ok ⟨404, []⟩) = .ok [] ∧
      @imag_corpus Unit (.error ()) = .error () ∧ @geo_locations Unit (.error ()) = .error () :=
  C7_network_failures_amended ⟨500, []⟩ ⟨404, []⟩ () (by decide) (by decide)

/-- Claim C10 (frame property): every row of a `filtered_selection` result is
a verbatim row of the input table, in input order and without duplication —
the result is a sublist of the input (the whole input table in the fallback
case). -/
theorem C10_frame_property (md : List Row) (d : Option (List Int))
    (c t a : Option (List PyStr)) (fy ty : Int) (lg : Option (List PyStr))
    (out : List Row) (hok : filtered_selection md d c t a fy ty lg = .ok out) :
    out.Sublist md := by
  obtain ⟨sel, hsel, hcase⟩ := filtered_selection_ok hok
  rcases hcase with ⟨_, rfl⟩ | ⟨_, rfl⟩
  · exact selectionOf_ok_sublist hsel
  · exact List.Sublist.refl _

theorem C10_frame_property_witness :
    List.Sublist [row1900] [row1820, row1850, row1900] :=
  C10_frame_property [row1820, row1850, row1900] none none none none 1860 1905 none
    [row1900] (by decide)

def row1700 : Row :=
  { dhlabid := 4, category := some "Fiksjon".toList,
    authors := some "Holberg, Ludvig".toList,
    title := "Peder Paars".toList, langs := some "dan".toList, year := 1700 }

theorem reSearch_eps (s : PyStr) : reSearch .eps s = true := by
  cases s with
  | nil => rfl
  | cons c cs => simp [reSearch, matchHere, nullable]

theorem bool_filter_exact_empty {α : Type} [DecidableEq α] (data : List α)
    (examples : Option (List α)) (h : examples = none ∨ examples = some []) :
    bool_filter_exact data examples = data.map (fun v => decide (v ∈ data)) := by
  rcases h with rfl | rfl <;> rfl

theorem bool_filter_regex_empty (data : List (Option PyStr))
    (examples : Option (List PyStr)) (h : examples = none ∨ examples = some []) :
    bool_filter_regex data examples = .ok (data.map (fun v => v.map (reSearch Regex.eps))) := by
  rcases h with rfl | rfl <;> rfl

theorem zipWith_map_same {α β γ δ : Type} (f : β → γ → δ) (g : α → β) (h : α → γ)
    (l : List α) :
    List.zipWith f (l.map g) (l.map h) = l.map (fun x => f (g x) (h x)) := by
  induction l with
  | nil => rfl
  | cons x xs ih => simp only [List.map_cons, List.zipWith_cons_cons, ih]

theorem maskFilter_all_true (rows : List Row) :
    maskFilter rows (rows.map (fun _ => some true)) = rows := by
  induction rows with
  | nil => rfl
  | cons r rs ih =>
    simp only [maskFilter, List.map_cons, List.zip_cons_cons, List.filterMap_cons,
      reduceIte] at ih ⊢
    rw [ih]

theorem combinedMask_all_true (md : List Row) :
    combinedMask (md.map fun _ => true) (md.map fun _ => some true)
      (md.map fun _ => some true) (md.map fun _ => true) (md.map fun _ => some true)
      (md.map fun _ => true) = md.map (fun _ => some true) := by
  unfold combinedMask
  simp only [List.map_map]
  rw [zipWith_map_same, zipWith_map_same, zipWith_map_same, zipWith_map_same, zipWith_map_same]
  rfl

/-- Claim C2 counterexample: with every criteria field absent and the year
bounds at their Python defaults (1814, 1905), `filtered_selection` does not
return the input table unchanged when a row's year falls outside the window:
the year mask is always active. -/
theorem C2_counterexample :
    filtered_selection [row1850, row1700] none none none none 1814 1905 none =
        .ok [row1850] ∧
      Except.ok [row1850] ≠ (.ok [row1850, row1700] : Except Unit (List Row)) := by decide

/-- Claim C2 amended: with every criteria field absent or empty and the
default year window 1814–1905, `filtered_selection` returns the full input
table unchanged, provided every row's year lies inside the window and the
regex-filtered columns (category, authors, langs) are present in every row.
(An out-of-window year, or a missing value in a regex-filtered column, makes
the row drop out of the intersection, so the unrestricted identity of the
claim fails — see the counterexample.) -/
theorem C2_identity_amended (md : List Row) (d : Option (List Int))
    (c t a lg : Option (List PyStr))
    (hd : d = none ∨ d = some []) (hc : c = none ∨ c = some [])
    (ht : t = none ∨ t = some []) (ha : a = none ∨ a = some [])
    (hl : lg = none ∨ lg = some [])
    (hyear : ∀ r ∈ md, 1814 ≤ r.year ∧ r.year ≤ 1905)
    (hsome : ∀ r ∈ md, r.category.isSome ∧ r.authors.isSome ∧ r.langs.isSome) :
    filtered_selection md d c t a 1814 1905 lg = .ok md := by
  have hdoc : bool_filter_exact (md.map (·.dhlabid)) d = md.map (fun _ => true) := by
    rw [bool_filter_exact_empty _ _ hd, List.map_map]
    refine List.map_congr_left (fun r hr => ?_)
    simp only [Function.comp_apply, decide_eq_true_eq, List.mem_map]
    exact ⟨r, hr, rfl⟩
  have htitle : bool_filter_exact (md.map (·.title)) t = md.map (fun _ => true) := by
    rw [bool_filter_exact_empty _ _ ht, List.map_map]
    refine List.map_congr_left (fun r hr => ?_)
    simp only [Function.comp_apply, decide_eq_true_eq, List.mem_map]
    exact ⟨r, hr, rfl⟩
  have hcat : bool_filter_regex (md.map (·.category)) c =
      .ok (md.map (fun _ => some true)) := by
    rw [bool_filter_regex_empty _ _ hc, List.map_map]
    refine congrArg Except.ok (List.map_congr_left (fun r hr => ?_))
    obtain ⟨x, hx⟩ := Option.isSome_iff_exists.mp (hsome r hr).1
    simp [Function.comp, hx, reSearch_eps]
  have hauth : bool_filter_regex (md.map (·.authors)) a =
      .ok (md.map (fun _ => some true)) := by
    rw [bool_filter_regex_empty _ _ ha, List.map_map]
    refine congrArg Except.ok (List.map_congr_left (fun r hr => ?_))
    obtain ⟨x, hx⟩ := Option.isSome_iff_exists.mp (hsome r hr).2.1
    simp [Function.comp, hx, reSearch_eps]
  have hlang : bool_filter_regex (md.map (·.langs)) lg =
      .ok (md.map (fun _ => some true)) := by
    rw [bool_filter_regex_empty _ _ hl, List.map_map]
    refine congrArg Except.ok (List.map_congr_left (fun r hr => ?_))
    obtain ⟨x, hx⟩ := Option.isSome_iff_exists.mp (hsome r hr).2.2
    simp [Function.comp, hx, reSearch_eps]
  have hper : md.map (fun r => periodPred 1814 1905 r.year) = md.map (fun _ => true) := by
    refine List.map_congr_left (fun r hr => ?_)
    have := hyear r hr
    simp only [periodPred, Bool.and_eq_true, decide_eq_true_eq]
    omega
  have hsel : selectionOf md d c t a 1814 1905 lg = .ok md := by
    unfold selectionOf
    simp only [hcat, hauth, hlang, hdoc, htitle, hper]
    rw [combinedMask_all_true, maskFilter_all_true]
  unfold filtered_selection
  rw [hsel]
  cases md with
  | nil => rfl
  | cons r rs => simp

theorem C2_identity_amended_witness :
    filtered_selection [row1850] none (some []) none none 1814 1905 none = .ok [row1850] :=
  C2_identity_amended [row1850] none (some []) none none none
    (Or.inl rfl) (Or.inr rfl) (Or.inl rfl) (Or.inl rfl) (Or.inl rfl)
    (by decide) (by decide)

theorem bool_filter_regex_ok {ex : Option (List PyStr)} {r : Regex}
    (h : reCompile (regpatOf ex) = some r) (data : List (Option PyStr)) :
    bool_filter_regex data ex = .ok (data.map (fun v => v.map (reSearch r))) := by
  unfold bool_filter_regex
  rw [h]

/-- Claim C6 counterexample: filtering can raise — a criteria value whose
joined pattern is an invalid regex (here the unterminated character set `"["`)
makes `str.contains` raise `re.error` inside `bool_filter`, and the error
propagates out of `filtered_selection`. -/
theorem C6_counterexample :
    filtered_selection [row1850] none (some ["[".toList]) none none 1814 1905 none =
        .error () ∧
      bool_filter_regex [some "abc".toList] (some ["[".toList]) = .error () := by decide

/-- Claim C6 amended: `filtered_selection` terminates without raising whenever
the joined, paren-escaped pattern of each regex-filtered criteria set
(categories, authors, languages) is a valid pattern; a criteria value that
yields an invalid pattern raises `re.error` instead of merely matching no
rows. -/
theorem C6_no_raise_amended (md : List Row) (d : Option (List Int))
    (c t a lg : Option (List PyStr)) (fy ty : Int)
    (hc : (reCompile (regpatOf c)).isSome) (ha : (reCompile (regpatOf a)).isSome)
    (hl : (reCompile (regpatOf lg)).isSome) :
    ∃ out, filtered_selection md d c t a fy ty lg = .ok out := by
  obtain ⟨rc, hrc⟩ := Option.isSome_iff_exists.mp hc
  obtain ⟨ra, hra⟩ := Option.isSome_iff_exists.mp ha
  obtain ⟨rl, hrl⟩ := Option.isSome_iff_exists.mp hl
  cases hsel : selectionOf md d c t a fy ty lg with
  | error e =>
    exfalso
    unfold selectionOf at hsel
    rw [bool_filter_regex_ok hrc, bool_filter_regex_ok hra, bool_filter_regex_ok hrl] at hsel
    simp at hsel
  | ok sel =>
    refine ⟨if !sel.isEmpty then sel else md, ?_⟩
    unfold filtered_selection
    rw [hsel]

theorem C6_no_raise_amended_witness :
    ∃ out, filtered_selection [row1850] none (some ["Fiksjon".toList]) none none 1814 1905
        (some []) = .ok out :=
  C6_no_raise_amended [row1850] none (some ["Fiksjon".toList]) none none (some [])
    1814 1905 (by decide) (by decide) (by decide)

/-- Characters with no special meaning in the modelled `re` fragment. -/
def plainChar (c : Char) : Bool :=
  decide (c ∉ (['\\', '[', '.', '|', '*', '+', '?', '(', ')', '^', '$', '\x7b', '\x7d'] : List Char))

/-- Regex matching exactly one literal string. -/
def litOf (e : PyStr) : Regex := e.foldr (fun c r => .cat (.chr c) r) .eps

theorem matchHere_emp (s : PyStr) : matchHere .emp s = false := by
  induction s with
  | nil => rfl
  | cons c cs ih => simp [matchHere, rderiv, nullable, ih]

theorem reSearch_emp (s : PyStr) : reSearch .emp s = false := by
  induction s with
  | nil => rfl
  | cons c cs ih => simp [reSearch, matchHere_emp, ih]

theorem matchHere_salt_or (s : PyStr)
    (ih : ∀ a b, matchHere (.alt a b) s = (matchHere a s || matchHere b s))
    (x y : Regex) : matchHere (salt x y) s = (matchHere x s || matchHere y s) := by
  by_cases hx : x = Regex.emp
  · subst hx; simp [salt, matchHere_emp]
  · by_cases hy : y = Regex.emp
    · subst hy; simp [salt, hx, matchHere_emp]
    · simp [salt, hx, hy, ih]

theorem matchHere_alt (s : PyStr) :
    ∀ a b, matchHere (.alt a b) s = (matchHere a s || matchHere b s) := by
  induction s with
  | nil => intro a b; simp [matchHere, nullable]
  | cons c cs ih =>
    intro a b
    simp only [matchHere, nullable, rderiv]
    rw [matchHere_salt_or cs ih]
    cases nullable a <;> cases nullable b <;>
      cases matchHere (rderiv a c) cs <;> cases matchHere (rderiv b c) cs <;> rfl

theorem reSearch_alt (a b : Regex) (s : PyStr) :
    reSearch (.alt a b) s = (reSearch a s || reSearch b s) := by
  induction s with
  | nil => simp [reSearch, nullable]
  | cons c cs ih =>
    simp only [reSearch, matchHere_alt, ih]
    cases matchHere a (c :: cs) <;> cases matchHere b (c :: cs) <;>
      cases reSearch a cs <;> cases reSearch b cs <;> rfl

theorem reSearch_altListR (rs : List Regex) (s : PyStr) :
    reSearch (altListR rs) s = rs.any (fun r => reSearch r s) := by
  induction rs with
  | nil => simp [altListR, reSearch_emp]
  | cons r rs ih =>
    cases rs with
    | nil => simp [altListR]
    | cons r2 rs2 => simp [altListR, reSearch_alt, ih]

theorem litOf_ne_emp (e : PyStr) : litOf e ≠ .emp := by
  cases e <;> simp [litOf]

theorem matchHere_lit (e : PyStr) : ∀ s, matchHere (litOf e) s = decide (e <+: s) := by
  induction e with
  | nil =>
    intro s
    cases s <;> simp [litOf, matchHere, nullable]
  | cons c e ih =>
    intro s
    cases s with
    | nil => simp [litOf, matchHere, nullable]
    | cons d s2 =>
      have hlit : litOf (c :: e) = .cat (.chr c) (litOf e) := rfl
      rw [hlit]
      simp only [matchHere, nullable, Bool.and_eq_true, Bool.false_and, rderiv,
        Bool.false_or]
      by_cases hd : d = c
      · subst hd
        have hscat : scat Regex.eps (litOf e) = litOf e := by
          simp [scat, litOf_ne_emp e]
        simp only [Bool.false_eq_true, if_false, if_true, if_pos rfl, hscat, ih s2]
        simp [List.cons_prefix_cons]
      · have hscat : scat Regex.emp (litOf e) = Regex.emp := by simp [scat]
        simp only [Bool.false_eq_true, if_false, if_neg hd, hscat, matchHere_emp]
        simp [List.cons_prefix_cons, Ne.symm hd]

theorem reSearch_lit (e : PyStr) : ∀ s, reSearch (litOf e) s = decide (e <:+: s) := by
  intro s
  induction s with
  | nil =>
    cases e with
    | nil => simp [reSearch, litOf, nullable]
    | cons c e2 => simp [reSearch, litOf, nullable]
  | cons c cs ih =>
    simp only [reSearch, matchHere_lit, ih]
    by_cases h1 : e <+: c :: cs <;> by_cases h2 : e <:+: cs <;>
      simp [h1, h2, List.infix_cons_iff]

/-- Token of one plain-or-`|` character. -/
def charTok (c : Char) : Tok := if c = '|' then .bar else .lit c

theorem plainChar_spec {c : Char} (h : plainChar c = true) :
    c ≠ '\\' ∧ c ≠ '[' ∧ c ≠ '.' ∧ c ≠ '|' ∧ c ≠ '*' ∧ c ≠ '+' ∧ c ≠ '?' ∧
      c ≠ '(' ∧ c ≠ ')' ∧ c ≠ '^' ∧ c ≠ '$' ∧ c ≠ '\x7b' ∧ c ≠ '\x7d' := by
  have h2 : c ∉ (['\\', '[', '.', '|', '*', '+', '?', '(', ')', '^', '$', '\x7b', '\x7d'] :
      List Char) := by
    simpa [plainChar] using h
  simp only [List.mem_cons, not_or, List.not_mem_nil, not_false_iff, and_true] at h2
  exact h2

theorem tokenizeGo_plain :
    ∀ (fuel : Nat) (s : PyStr), s.length ≤ fuel →
      (∀ c ∈ s, plainChar c = true ∨ c = '|') →
      tokenizeGo fuel s = some (s.map charTok) := by
  intro fuel
  induction fuel with
  | zero =>
    intro s hl _
    cases s with
    | nil => rfl
    | cons c cs => simp at hl
  | succ f ih =>
    intro s hl hp
    cases s with
    | nil => rfl
    | cons c cs =>
      have hlf : cs.length ≤ f := by
        simp only [List.length_cons] at hl
        omega
      have hcs : tokenizeGo f cs = some (cs.map charTok) :=
        ih cs hlf (fun d hd => hp d (List.mem_cons_of_mem c hd))
      rcases hp c (List.mem_cons_self c cs) with hpc | hbar
      · obtain ⟨h1, h2, h3, h4, h5, h6, h7, h8, h9, h10, h11, h12, h13⟩ := plainChar_spec hpc
        have hcnot : ¬(c = '(' ∨ c = ')' ∨ c = '^' ∨ c = '$' ∨ c = '\x7b' ∨ c = '\x7d') := by
          simp [h8, h9, h10, h11, h12, h13]
        simp only [tokenizeGo, if_neg h1, if_neg h2, if_neg h3, if_neg h4, if_neg h5,
          if_neg h6, if_neg h7, if_neg hcnot, hcs, Option.map_some', List.map_cons]
        simp [charTok, h4]
      · subst hbar
        simp [tokenizeGo, hcs, charTok]

theorem tokenize_plain (s : PyStr) (h : ∀ c ∈ s, plainChar c = true ∨ c = '|') :
    tokenize s = some (s.map charTok) :=
  tokenizeGo_plain s.length s (Nat.le_refl _) h

theorem splitBar_no_bar (u : List Tok) (h : Tok.bar ∉ u) : splitBar u = [u] := by
  induction u with
  | nil => rfl
  | cons t ts ih =>
    have ht : t ≠ Tok.bar := fun he => h (he ▸ List.mem_cons_self t ts)
    have hts : Tok.bar ∉ ts := fun hm => h (List.mem_cons_of_mem t hm)
    cases t <;> simp_all [splitBar]

theorem splitBar_append_bar (u rest : List Tok) (h : Tok.bar ∉ u) :
    splitBar (u ++ Tok.bar :: rest) = u :: splitBar rest := by
  induction u with
  | nil => simp [splitBar]
  | cons t ts ih =>
    have ht : t ≠ Tok.bar := fun he => h (he ▸ List.mem_cons_self t ts)
    have hts : Tok.bar ∉ ts := fun hm => h (List.mem_cons_of_mem t hm)
    cases t <;> simp_all [splitBar]

theorem map_charTok_plain (e : PyStr) (h : ∀ c ∈ e, plainChar c = true) :
    e.map charTok = e.map Tok.lit := by
  refine List.map_congr_left (fun c hc => ?_)
  have hpc := h c hc
  have hbar : c ≠ '|' := by
    intro hb
    subst hb
    simp [plainChar] at hpc
  simp [charTok, hbar]

theorem bar_not_mem_map_lit (e : PyStr) : Tok.bar ∉ e.map Tok.lit := by simp

theorem escapeChar_eq_self (c : Char) (s : PyStr) (h : c ∉ s) : escapeChar c s = s := by
  induction s with
  | nil => rfl
  | cons d ds ih =>
    have hd : d ≠ c := fun he => h (he ▸ List.mem_cons_self d ds)
    have hds : c ∉ ds := fun hm => h (List.mem_cons_of_mem d hm)
    simp [escapeChar, hd] at ih ⊢
    exact ih hds

theorem mem_pyjoin {c : Char} (sep : PyStr) (es : List PyStr) (h : c ∈ pyjoin sep es) :
    c ∈ sep ∨ ∃ e ∈ es, c ∈ e := by
  induction es with
  | nil => simp [pyjoin] at h
  | cons e es ih =>
    cases es with
    | nil => right; exact ⟨e, by simp, by simpa [pyjoin] using h⟩
    | cons e2 es2 =>
      simp only [pyjoin, List.append_assoc, List.mem_append] at h
      rcases h with h | h | h
      · right; exact ⟨e, by simp, h⟩
      · left; exact h
      · rcases ih h with h2 | ⟨x, hx, hcx⟩
        · exact Or.inl h2
        · exact Or.inr ⟨x, List.mem_cons_of_mem e hx, hcx⟩

theorem parseSeq_lits (e : PyStr) : parseSeq (e.map Tok.lit) = some (litOf e) := by
  induction e with
  | nil => rfl
  | cons c e ih =>
    cases e with
    | nil => rfl
    | cons d e2 =>
      have hlit : litOf (c :: d :: e2) = .cat (.chr c) (litOf (d :: e2)) := rfl
      simp only [List.map_cons] at ih ⊢
      simp [parseSeq, atomOf, ih, hlit]

theorem parseAlts_lits (es : List PyStr) :
    parseAlts (es.map (fun e => e.map Tok.lit)) = some (es.map litOf) := by
  induction es with
  | nil => rfl
  | cons e es ih =>
    simp [parseAlts, parseSeq_lits, ih, Bind.bind, Option.bind]

theorem splitBar_join (es : List PyStr)
    (hp : ∀ e ∈ es, ∀ c ∈ e, plainChar c = true) (hne : es ≠ []) :
    splitBar ((pyjoin ['|'] es).map charTok) = es.map (fun e => e.map Tok.lit) := by
  induction es with
  | nil => exact absurd rfl hne
  | cons e es ih =>
    cases es with
    | nil =>
      have hpe : ∀ c ∈ e, plainChar c = true := hp e (by simp)
      rw [show pyjoin ['|'] [e] = e from rfl, map_charTok_plain e hpe,
        splitBar_no_bar _ (bar_not_mem_map_lit e)]
      rfl
    | cons e2 es2 =>
      have hpe : ∀ c ∈ e, plainChar c = true := hp e (by simp)
      have hrest : ∀ x ∈ e2 :: es2, ∀ c ∈ x, plainChar c = true :=
        fun x hx => hp x (List.mem_cons_of_mem e hx)
      rw [show pyjoin ['|'] (e :: e2 :: es2) = (e ++ ['|']) ++ pyjoin ['|'] (e2 :: es2) from rfl,
        List.append_assoc]
      rw [show (['|'] ++ pyjoin ['|'] (e2 :: es2) : PyStr) = '|' :: pyjoin ['|'] (e2 :: es2)
        from rfl]
      rw [List.map_append, map_charTok_plain e hpe, List.map_cons,
        show charTok '|' = Tok.bar from rfl,
        splitBar_append_bar _ _ (bar_not_mem_map_lit e), ih hrest (by simp)]
      rfl

theorem reCompile_regpatOf_plain (es : List PyStr) (hne : es ≠ [])
    (hp : ∀ e ∈ es, ∀ c ∈ e, plainChar c = true) :
    reCompile (regpatOf (some es)) = some (altListR (es.map litOf)) := by
  have hmem : ∀ c ∈ pyjoin ['|'] es, plainChar c = true ∨ c = '|' := by
    intro c hc
    rcases mem_pyjoin ['|'] es hc with h | ⟨e, he, hce⟩
    · right; simpa using h
    · left; exact hp e he c hce
  have hnopen : '(' ∉ pyjoin ['|'] es := by
    intro hc
    rcases hmem '(' hc with h | h
    · simp [plainChar] at h
    · simp at h
  have hnclose : ')' ∉ pyjoin ['|'] es := by
    intro hc
    rcases hmem ')' hc with h | h
    · simp [plainChar] at h
    · simp at h
  have hie : es.isEmpty = false := by
    cases es with
    | nil => exact absurd rfl hne
    | cons x xs => rfl
  have hpat : regpatOf (some es) = pyjoin ['|'] es := by
    show escapeChar ')' (escapeChar '('
      (if es.isEmpty then [] else pyjoin ['|'] es)) = pyjoin ['|'] es
    rw [hie]
    simp only [Bool.false_eq_true, if_false]
    rw [escapeChar_eq_self _ _ hnopen, escapeChar_eq_self _ _ hnclose]
  rw [hpat]
  unfold reCompile
  rw [tokenize_plain _ hmem]
  simp only [Bind.bind, Option.bind]
  rw [splitBar_join es hp hne, parseAlts_lits]
  rfl

theorem any_map_comp {α β : Type} (l : List α) (f : α → β) (p : β → Bool) :
    (l.map f).any p = l.any (fun a => p (f a)) := by
  induction l with
  | nil => rfl
  | cons x xs ih => simp [ih]

theorem any_decide_eq {α : Type} (l : List α) (p : α → Prop) [DecidablePred p] :
    (l.any fun a => decide (p a)) = decide (∃ a ∈ l, p a) := by
  rw [Bool.eq_iff_iff]
  simp [List.any_eq_true]

/-- Claim C4 counterexample: with an empty requested-value list, the predicate
of `bool_filter` with `regex=True` is NOT true for a row whose field value is
missing — `str.contains` yields `NA` (`none`) for that row, not `True`. -/
theorem C4_counterexample :
    bool_filter_regex [some "abc".toList, none] (some []) = .ok [some true, none] ∧
      (none : Option Bool) ≠ some true := by decide

/-- Claim C4 amended: for requested values made of plain characters (no regex
metacharacters), `bool_filter` with `regex=True` matches a present field value
iff ANY requested value occurs as a substring of it (the empty list matches
every present value, since the joined pattern is then empty); a missing field
value always yields `NA`, not `True`. -/
theorem C4_regex_union_amended (data : List (Option PyStr)) (es : List PyStr)
    (hp : ∀ e ∈ es, ∀ c ∈ e, plainChar c = true) :
    bool_filter_regex data (some es) =
      .ok (data.map (Option.map
        (fun v => es.isEmpty || decide (∃ e ∈ es, e <:+: v)))) := by
  cases es with
  | nil =>
    rw [bool_filter_regex_empty data _ (Or.inr rfl)]
    refine congrArg Except.ok (List.map_congr_left (fun v hv => ?_))
    cases v with
    | none => rfl
    | some x => simp [reSearch_eps]
  | cons e es2 =>
    rw [bool_filter_regex_ok (reCompile_regpatOf_plain (e :: es2) (by simp) hp)]
    refine congrArg Except.ok (List.map_congr_left (fun v hv => ?_))
    cases v with
    | none => rfl
    | some x =>
      simp only [Option.map_some']
      congr 1
      rw [reSearch_altListR, any_map_comp]
      simp only [reSearch_lit, List.isEmpty_cons, Bool.false_or]
      exact any_decide_eq (e :: es2) (fun y => y <:+: x)

theorem C4_regex_union_amended_witness :
    bool_filter_regex [some "abc".toList, some "xyz".toList, none]
        (some ["ab".toList, "q".toList]) =
      .ok ([some "abc".toList, some "xyz".toList, none].map
        (Option.map (fun v => (["ab".toList, "q".toList] : List PyStr).isEmpty ||
          decide (∃ e ∈ (["ab".toList, "q".toList] : List PyStr), e <:+: v)))) :=
  C4_regex_union_amended [some "abc".toList, some "xyz".toList, none]
    ["ab".toList, "q".toList] (by decide)

theorem flatMap_congr {α β : Type} (l : List α) (f g : α → List β)
    (h : ∀ a ∈ l, f a = g a) : l.flatMap f = l.flatMap g := by
  induction l with
  | nil => rfl
  | cons x xs ih =>
    simp only [List.flatMap_cons]
    rw [h x (List.mem_cons_self x xs), ih (fun a ha => h a (List.mem_cons_of_mem x ha))]

theorem filter_map_strip_comm (us : List PyStr)
    (h : ∀ u ∈ us, u ≠ [] → pystrip u ≠ []) :
    (us.filter (· ≠ [])).map pystrip = (us.map pystrip).filter (· ≠ []) := by
  induction us with
  | nil => rfl
  | cons u us ih =>
    have ihr := ih (fun v hv => h v (List.mem_cons_of_mem u hv))
    by_cases hu : u = []
    · subst hu
      have h1 : (([] : PyStr) :: us).filter (· ≠ []) = us.filter (· ≠ []) := by
        simp [List.filter_cons]
      have h2 : ((([] : PyStr) :: us).map pystrip).filter (· ≠ []) =
          (us.map pystrip).filter (· ≠ []) := by
        simp [List.filter_cons, pystrip]
      rw [h1, h2, ihr]
    · have hs := h u (List.mem_cons_self u us) hu
      have h1 : ((u :: us).filter (· ≠ [])) = u :: us.filter (· ≠ []) := by
        simp [List.filter_cons, hu]
      have h2 : (((u :: us).map pystrip).filter (· ≠ [])) =
          pystrip u :: (us.map pystrip).filter (· ≠ []) := by
        simp [List.filter_cons, hs]
      rw [h1, h2, List.map_cons, ihr]

/-- Claim C8 counterexample: `extract_unique_values` filters out units that are
empty *before* stripping, so a whitespace-only unit survives and is trimmed to
the empty string: on the cell `"a/ "` the output contains `""`, while the
claimed pipeline (trim, then discard empty units) yields only `"a"`. -/
theorem C8_counterexample :
    extract_unique_values [Cell.cstr "a/ ".toList] '/' = [[], "a".toList] ∧
      extract_unique_values_spec [Cell.cstr "a/ ".toList] '/' = ["a".toList] ∧
      extract_unique_values [Cell.cstr "a/ ".toList] '/' ≠
        extract_unique_values_spec [Cell.cstr "a/ ".toList] '/' := by decide

/-- Claim C8 amended: `extract_unique_values` splits each distinct string cell
on the delimiter, discards units that are empty *before* trimming, trims
whitespace from the rest, deduplicates and sorts lexicographically; missing
and non-string cells are skipped silently.  This coincides with the claimed
trim-then-discard pipeline whenever no unit consists purely of whitespace. -/
theorem C8_extract_amended (data : List Cell) (sep : Char)
    (h : ∀ c ∈ data, ∀ u ∈ pysplit sep ((cellStr c).getD []), u ≠ [] → pystrip u ≠ []) :
    extract_unique_values data sep = extract_unique_values_spec data sep := by
  unfold extract_unique_values extract_unique_values_spec
  congr 1
  refine flatMap_congr _ _ _ (fun item hitem => ?_)
  obtain ⟨cell, hcell, hcs⟩ := List.mem_filterMap.mp hitem
  have hcell2 : cell ∈ data := List.mem_dedup.mp hcell
  have hgetd : (cellStr cell).getD [] = item := by rw [hcs]; rfl
  exact filter_map_strip_comm _ (fun u hu => h cell hcell2 u (hgetd ▸ hu))

theorem C8_extract_amended_witness :
    extract_unique_values [Cell.cstr "Ibsen, Henrik/Bjørnson, Bjørnstjerne".toList] '/' =
      extract_unique_values_spec
        [Cell.cstr "Ibsen, Henrik/Bjørnson, Bjørnstjerne".toList] '/' :=
  C8_extract_amended [Cell.cstr "Ibsen, Henrik/Bjørnson, Bjørnstjerne".toList] '/'
    (by decide)

theorem lexLt_trans : ∀ {a b c : PyStr}, lexLt a b = true → lexLt b c = true →
    lexLt a c = true := by
  intro a
  induction a with
  | nil =>
    intro b c hab hbc
    cases b with
    | nil => simp [lexLt] at hab
    | cons x xs =>
      cases c with
      | nil => simp [lexLt] at hbc
      | cons y ys => simp [lexLt]
  | cons x xs ih =>
    intro b c hab hbc
    cases b with
    | nil => simp [lexLt] at hab
    | cons y ys =>
      cases c with
      | nil => simp [lexLt] at hbc
      | cons z zs =>
        simp only [lexLt, Bool.or_eq_true, Bool.and_eq_true, decide_eq_true_eq] at hab hbc ⊢
        rcases hab with h1 | ⟨h1, h2⟩ <;> rcases hbc with h3 | ⟨h3, h4⟩
        · exact Or.inl (lt_trans h1 h3)
        · exact Or.inl (h3 ▸ h1)
        · exact Or.inl (h1 ▸ h3)
        · exact Or.inr ⟨h1.trans h3, ih h2 h4⟩

theorem lexLt_trichotomy : ∀ (a b : PyStr), lexLt a b = true ∨ a = b ∨ lexLt b a = true := by
  intro a
  induction a with
  | nil =>
    intro b
    cases b with
    | nil => right; left; rfl
    | cons y ys => left; simp [lexLt]
  | cons x xs ih =>
    intro b
    cases b with
    | nil => right; right; simp [lexLt]
    | cons y ys =>
      rcases lt_trichotomy x y with h | h | h
      · left; simp [lexLt, h]
      · subst h
        rcases ih ys with h2 | h2 | h2
        · left; simp [lexLt, h2]
        · right; left; rw [h2]
        · right; right; simp [lexLt, h2]
      · right; right; simp [lexLt, h]

instance : IsTrans PyStr lexLe :=
  ⟨fun a b c hab hbc => by
    rcases hab with hab | rfl
    · rcases hbc with hbc | rfl
      · exact Or.inl (lexLt_trans hab hbc)
      · exact Or.inl hab
    · exact hbc⟩

instance : IsTotal PyStr lexLe :=
  ⟨fun a b => by
    rcases lexLt_trichotomy a b with h | h | h
    · exact Or.inl (Or.inl h)
    · exact Or.inl (Or.inr h)
    · exact Or.inr (Or.inl h)⟩

theorem mem_sortedDedup {x : PyStr} {l : List PyStr} : x ∈ sortedDedup l ↔ x ∈ l := by
  unfold sortedDedup
  rw [(List.perm_insertionSort lexLe l.dedup).mem_iff]
  exact List.mem_dedup

theorem sortedDedup_nodup (l : List PyStr) : (sortedDedup l).Nodup :=
  ((List.perm_insertionSort lexLe l.dedup).nodup_iff).mpr (List.nodup_dedup l)

theorem sortedDedup_sorted (l : List PyStr) : (sortedDedup l).Sorted lexLe :=
  List.sorted_insertionSort lexLe l.dedup

theorem sortedDedup_eq_self {l : List PyStr} (hs : l.Sorted lexLe) (hn : l.Nodup) :
    sortedDedup l = l := by
  unfold sortedDedup
  rw [List.dedup_eq_self.mpr hn]
  exact List.Sorted.insertionSort_eq hs

theorem pysplit_not_mem_sep (sep : Char) : ∀ (s : PyStr), ∀ u ∈ pysplit sep s, sep ∉ u := by
  intro s
  induction s with
  | nil =>
    intro u hu
    simp only [pysplit, List.mem_singleton] at hu
    simp [hu]
  | cons c cs ih =>
    intro u hu
    simp only [pysplit] at hu
    cases hsp : pysplit sep cs with
    | nil => rw [hsp] at hu; simp at hu; simp [hu]
    | cons v vs =>
      rw [hsp] at hu
      have hu2 : u ∈ (if c = sep then ([] : PyStr) :: v :: vs else (c :: v) :: vs) := hu
      by_cases hc : c = sep
      · rw [if_pos hc] at hu2
        rcases List.mem_cons.mp hu2 with rfl | hu3
        · simp
        · exact ih u (hsp ▸ hu3)
      · rw [if_neg hc] at hu2
        rcases List.mem_cons.mp hu2 with rfl | hu3
        · intro hmem
          rcases List.mem_cons.mp hmem with rfl | hmem2
          · exact hc rfl
          · exact ih v (hsp ▸ List.mem_cons_self v vs) hmem2
        · exact ih u (hsp ▸ List.mem_cons_of_mem v hu3)

theorem pysplit_no_sep (sep : Char) : ∀ (s : PyStr), sep ∉ s → pysplit sep s = [s] := by
  intro s
  induction s with
  | nil => intro _; rfl
  | cons c cs ih =>
    intro h
    have hc : c ≠ sep := fun he => h (he ▸ List.mem_cons_self c cs)
    have hcs : sep ∉ cs := fun hm => h (List.mem_cons_of_mem c hm)
    simp only [pysplit, ih hcs]
    rw [if_neg (fun he => hc he)]

theorem mem_pystrip {c : Char} {s : PyStr} (h : c ∈ pystrip s) : c ∈ s := by
  unfold pystrip at h
  rw [List.mem_reverse] at h
  have h2 := (List.dropWhile_sublist _).subset h
  rw [List.mem_reverse] at h2
  exact (List.dropWhile_sublist _).subset h2

theorem dropWhile_head_false (p : Char → Bool) : ∀ (l : PyStr) {c : Char} {cs : PyStr},
    l.dropWhile p = c :: cs → p c = false := by
  intro l
  induction l with
  | nil => intro c cs h; simp [List.dropWhile] at h
  | cons d ds ih =>
    intro c cs h
    rw [List.dropWhile_cons] at h
    by_cases hd : p d = true
    · rw [if_pos hd] at h; exact ih h
    · rw [if_neg hd] at h
      injection h with h1 _
      subst h1
      exact Bool.not_eq_true _ ▸ hd

theorem dropWhile_eq_self_of_head (p : Char → Bool) (l : PyStr)
    (h : ∀ c cs, l = c :: cs → p c = false) : l.dropWhile p = l := by
  cases l with
  | nil => rfl
  | cons c cs =>
    rw [List.dropWhile_cons, h c cs rfl]
    simp

theorem pystrip_idem (s : PyStr) : pystrip (pystrip s) = pystrip s := by
  unfold pystrip
  have hstep1 : (((s.dropWhile Char.isWhitespace).reverse.dropWhile
      Char.isWhitespace).reverse).dropWhile Char.isWhitespace =
      ((s.dropWhile Char.isWhitespace).reverse.dropWhile Char.isWhitespace).reverse := by
    apply dropWhile_eq_self_of_head
    intro c cs hc
    have hsuf : (s.dropWhile Char.isWhitespace).reverse.dropWhile Char.isWhitespace <:+
        (s.dropWhile Char.isWhitespace).reverse := List.dropWhile_suffix _
    have hpre : ((s.dropWhile Char.isWhitespace).reverse.dropWhile
        Char.isWhitespace).reverse <+: s.dropWhile Char.isWhitespace := by
      have := List.reverse_prefix.mpr hsuf
      rwa [List.reverse_reverse] at this
    obtain ⟨rest, hrest⟩ := hpre
    rw [hc] at hrest
    exact dropWhile_head_false Char.isWhitespace s hrest.symm ▸ rfl
  rw [hstep1, List.reverse_reverse]
  congr 1
  apply dropWhile_eq_self_of_head
  intro c cs hc
  exact dropWhile_head_false Char.isWhitespace (s.dropWhile Char.isWhitespace).reverse hc

theorem cstr_injective : Function.Injective Cell.cstr := fun a b h => by injection h

theorem filterMap_cellStr_map_cstr (l : List PyStr) :
    (l.map Cell.cstr).filterMap cellStr = l := by
  induction l with
  | nil => rfl
  | cons x xs ih => simp [cellStr, ih]

theorem flatMap_id_singleton {α : Type} (l : List α) : l.flatMap (fun x => [x]) = l := by
  induction l with
  | nil => rfl
  | cons x xs ih => simp [ih]

/-- Claim C9 counterexample: `extract_unique_values` is not idempotent — on a
whitespace-only cell the first pass produces the empty string, which the
second pass discards (as a falsy unit), so applying the function to its own
output changes the result. -/
theorem C9_counterexample :
    extract_unique_values [Cell.cstr " ".toList] '/' = [[]] ∧
      extract_unique_values
          ((extract_unique_values [Cell.cstr " ".toList] '/').map Cell.cstr) '/' = [] ∧
      ([] : List PyStr) ≠ [[]] := by decide

/-- Claim C9 amended: `extract_unique_values` is idempotent on every input
whose output does not contain the empty string (equivalently, no unit of the
input is purely whitespace): applying it to its own output, with each output
element as a single-unit entry, returns the same sorted list. -/
theorem C9_idempotent_amended (data : List Cell) (sep : Char)
    (h : [] ∉ extract_unique_values data sep) :
    extract_unique_values ((extract_unique_values data sep).map Cell.cstr) sep =
      extract_unique_values data sep := by
  set L := extract_unique_values data sep with hL
  have hmemL : ∀ x ∈ L, pystrip x = x ∧ sep ∉ x := by
    intro x hx
    have hxM : x ∈ (data.dedup.filterMap cellStr).flatMap
        (fun item => ((pysplit sep item).filter (· ≠ [])).map pystrip) := by
      have hx2 : x ∈ sortedDedup ((data.dedup.filterMap cellStr).flatMap
          (fun item => ((pysplit sep item).filter (· ≠ [])).map pystrip)) := hx
      exact mem_sortedDedup.mp hx2
    obtain ⟨item, _, hxitem⟩ := List.mem_flatMap.mp hxM
    obtain ⟨u, hu, rfl⟩ := List.mem_map.mp hxitem
    have husplit := (List.mem_filter.mp hu).1
    refine ⟨pystrip_idem u, fun hsep => ?_⟩
    exact (pysplit_not_mem_sep sep item u husplit) (mem_pystrip hsep)
  have hsorted : L.Sorted lexLe := sortedDedup_sorted _
  have hnodup : L.Nodup := sortedDedup_nodup _
  have hpipeline : ((L.map Cell.cstr).dedup.filterMap cellStr).flatMap
      (fun item => ((pysplit sep item).filter (· ≠ [])).map pystrip) = L := by
    rw [List.dedup_eq_self.mpr (hnodup.map cstr_injective), filterMap_cellStr_map_cstr]
    rw [flatMap_congr L _ (fun x => [x]) ?_, flatMap_id_singleton]
    intro x hx
    have hxne : x ≠ [] := fun he => h (he ▸ hx)
    rw [pysplit_no_sep sep x (hmemL x hx).2]
    simp [hxne, (hmemL x hx).1]
  show extract_unique_values (L.map Cell.cstr) sep = L
  unfold extract_unique_values
  rw [hpipeline]
  exact sortedDedup_eq_self hsorted hnodup

theorem C9_idempotent_amended_witness :
    extract_unique_values ((extract_unique_values [Cell.cstr "b/a".toList] '/').map
        Cell.cstr) '/' =
      extract_unique_values [Cell.cstr "b/a".toList] '/' :=
  C9_idempotent_amended [Cell.cstr "b/a".toList] '/' (by decide)

example : reCompile "a{2}".toList = none := by decide

example : reCompile "[z-a]".toList = none := by decide

example : (reCompile "[a-z]".toList).isSome = true := by decide

example : @geo_locations Nat (.ok ⟨999, [7]⟩) = .ok [7] := rfl

example : @geo_locations Nat (.ok ⟨500, [7]⟩) = .ok [] := rfl
